import Mathlib

/-!
Verification of the minimal quantum-circuit simulation routine described by
the specification of `gate-model.ipynb` (radical-pair formation as a quantum
gate).  The notebook builds its circuits with an external quantum SDK, so the
simulator itself is not part of the repository's sources; following the
specification we model it as an exact linear-algebra evolution.  Amplitudes
are represented exactly in the ring ℚ(√2) (generated by the Hadamard entry
1/√2), complexified; since the model is exact, every equality proved here
holds in particular within any floating-point tolerance such as 1e-9.
-/

/-- An element `a + b·√2` of the ring ℚ(√2), with `a b : ℚ`.
All amplitudes occurring in the notebook's circuits lie in this ring. -/
structure Rt2 where
  a : ℚ
  b : ℚ
deriving DecidableEq

instance : Zero Rt2 := ⟨⟨0, 0⟩⟩

instance : One Rt2 := ⟨⟨1, 0⟩⟩

instance : Add Rt2 := ⟨fun x y => ⟨x.a + y.a, x.b + y.b⟩⟩

instance : Neg Rt2 := ⟨fun x => ⟨-x.a, -x.b⟩⟩

instance : Mul Rt2 := ⟨fun x y => ⟨x.a * y.a + 2 * (x.b * y.b), x.a * y.b + x.b * y.a⟩⟩

instance : CommRing Rt2 where
  nsmul := nsmulRec
  zsmul := zsmulRec
  add_assoc := by
    rintro ⟨a1, b1⟩ ⟨a2, b2⟩ ⟨a3, b3⟩
    show Rt2.mk (a1 + a2 + a3) (b1 + b2 + b3) = Rt2.mk (a1 + (a2 + a3)) (b1 + (b2 + b3))
    simp only [Rt2.mk.injEq]
    constructor <;> ring
  zero_add := by
    rintro ⟨a1, b1⟩
    show Rt2.mk (0 + a1) (0 + b1) = Rt2.mk a1 b1
    simp only [Rt2.mk.injEq]
    constructor <;> ring
  add_zero := by
    rintro ⟨a1, b1⟩
    show Rt2.mk (a1 + 0) (b1 + 0) = Rt2.mk a1 b1
    simp only [Rt2.mk.injEq]
    constructor <;> ring
  add_comm := by
    rintro ⟨a1, b1⟩ ⟨a2, b2⟩
    show Rt2.mk (a1 + a2) (b1 + b2) = Rt2.mk (a2 + a1) (b2 + b1)
    simp only [Rt2.mk.injEq]
    constructor <;> ring
  neg_add_cancel := by
    rintro ⟨a1, b1⟩
    show Rt2.mk (-a1 + a1) (-b1 + b1) = Rt2.mk 0 0
    simp only [Rt2.mk.injEq]
    constructor <;> ring
  left_distrib := by
    rintro ⟨a1, b1⟩ ⟨a2, b2⟩ ⟨a3, b3⟩
    show Rt2.mk (a1 * (a2 + a3) + 2 * (b1 * (b2 + b3))) (a1 * (b2 + b3) + b1 * (a2 + a3))
       = Rt2.mk (a1 * a2 + 2 * (b1 * b2) + (a1 * a3 + 2 * (b1 * b3)))
               (a1 * b2 + b1 * a2 + (a1 * b3 + b1 * a3))
    simp only [Rt2.mk.injEq]
    constructor <;> ring
  right_distrib := by
    rintro ⟨a1, b1⟩ ⟨a2, b2⟩ ⟨a3, b3⟩
    show Rt2.mk ((a1 + a2) * a3 + 2 * ((b1 + b2) * b3)) ((a1 + a2) * b3 + (b1 + b2) * a3)
       = Rt2.mk (a1 * a3 + 2 * (b1 * b3) + (a2 * a3 + 2 * (b2 * b3)))
               (a1 * b3 + b1 * a3 + (a2 * b3 + b2 * a3))
    simp only [Rt2.mk.injEq]
    constructor <;> ring
  zero_mul := by
    rintro ⟨a1, b1⟩
    show Rt2.mk (0 * a1 + 2 * (0 * b1)) (0 * b1 + 0 * a1) = Rt2.mk 0 0
    simp only [Rt2.mk.injEq]
    constructor <;> ring
  mul_zero := by
    rintro ⟨a1, b1⟩
    show Rt2.mk (a1 * 0 + 2 * (b1 * 0)) (a1 * 0 + b1 * 0) = Rt2.mk 0 0
    simp only [Rt2.mk.injEq]
    constructor <;> ring
  mul_assoc := by
    rintro ⟨a1, b1⟩ ⟨a2, b2⟩ ⟨a3, b3⟩
    show Rt2.mk ((a1 * a2 + 2 * (b1 * b2)) * a3 + 2 * ((a1 * b2 + b1 * a2) * b3))
               ((a1 * a2 + 2 * (b1 * b2)) * b3 + (a1 * b2 + b1 * a2) * a3)
       = Rt2.mk (a1 * (a2 * a3 + 2 * (b2 * b3)) + 2 * (b1 * (a2 * b3 + b2 * a3)))
               (a1 * (a2 * b3 + b2 * a3) + b1 * (a2 * a3 + 2 * (b2 * b3)))
    simp only [Rt2.mk.injEq]
    constructor <;> ring
  one_mul := by
    rintro ⟨a1, b1⟩
    show Rt2.mk (1 * a1 + 2 * (0 * b1)) (1 * b1 + 0 * a1) = Rt2.mk a1 b1
    simp only [Rt2.mk.injEq]
    constructor <;> ring
  mul_one := by
    rintro ⟨a1, b1⟩
    show Rt2.mk (a1 * 1 + 2 * (b1 * 0)) (a1 * 0 + b1 * 1) = Rt2.mk a1 b1
    simp only [Rt2.mk.injEq]
    constructor <;> ring
  mul_comm := by
    rintro ⟨a1, b1⟩ ⟨a2, b2⟩
    show Rt2.mk (a1 * a2 + 2 * (b1 * b2)) (a1 * b2 + b1 * a2)
       = Rt2.mk (a2 * a1 + 2 * (b2 * b1)) (a2 * b1 + b2 * a1)
    simp only [Rt2.mk.injEq]
    constructor <;> ring

/-- The real number `1/√2 = (√2)/2`, the entry of the Hadamard matrix, as the
element `0 + (1/2)·√2` of ℚ(√2). -/
def sqrtHalf : Rt2 := ⟨0, 1/2⟩

/-- A complex amplitude with real and imaginary parts in ℚ(√2).  The
specification prescribes complex arithmetic for the state vector; every gate
of the notebook has real matrix entries, so this ring contains every
amplitude the simulation produces. -/
structure CAmp where
  re : Rt2
  im : Rt2
deriving DecidableEq

instance : Zero CAmp := ⟨⟨0, 0⟩⟩

instance : One CAmp := ⟨⟨1, 0⟩⟩

instance : Add CAmp := ⟨fun x y => ⟨x.re + y.re, x.im + y.im⟩⟩

instance : Neg CAmp := ⟨fun x => ⟨-x.re, -x.im⟩⟩

instance : Sub CAmp := ⟨fun x y => ⟨x.re - y.re, x.im - y.im⟩⟩

instance : Mul CAmp := ⟨fun x y => ⟨x.re * y.re - x.im * y.im, x.re * y.im + x.im * y.re⟩⟩

/-- Squared magnitude `re² + im²` of a complex amplitude, an element of
ℚ(√2) (a nonnegative real number). -/
def normSq (z : CAmp) : Rt2 := z.re * z.re + z.im * z.im

/-- The Hadamard coefficient 1/√2 as a (real) complex amplitude. -/
def cH : CAmp := ⟨sqrtHalf, 0⟩

/-- The real amplitude 1/2, appearing in the 4-qubit output statevectors. -/
def cHalf : CAmp := ⟨⟨1/2, 0⟩, 0⟩

/-- Flip bit `q` of basis index `i` (XOR with `2^q`). -/
def flipBit (i q : Nat) : Nat := i ^^^ 2 ^ q

/-- Exchange bits `a` and `b` of basis index `i`: the permutation of
computational-basis indices realising the SWAP gate of the specification. -/
def swapBits (i a b : Nat) : Nat :=
  if i.testBit a = i.testBit b then i else i ^^^ (2 ^ a ^^^ 2 ^ b)

/-- The permutation of basis indices realising CNOT: identity on indices
whose control bit is 0, and a flip of the target bit where it is 1. -/
def cnotPerm (control target i : Nat) : Nat :=
  if i.testBit control then flipBit i target else i

/-- Gate names of the specification's fixed gate set. -/
inductive GateName
  | H
  | X
  | Z
  | CNOT
  | SWAP
deriving DecidableEq

/-- A gate operation: a named gate tagged with the qubit index(es) it acts
on.  Qubit 0 is the least significant bit of a basis index, the convention
under which the notebook's printed statevectors are indexed. -/
inductive GateOp where
  | h (q : Nat)
  | x (q : Nat)
  | z (q : Nat)
  | cnot (control target : Nat)
  | swap (a b : Nat)
deriving DecidableEq

/-- Modelled from the spec: one gate-application step of the simulator, the
left-multiplication of the state vector by the gate's unitary extended by
identity over untouched qubits.  The gate unitaries are the fixed matrices
of the specification: H = (1/√2)[[1,1],[1,-1]], X = [[0,1],[1,0]],
Z = [[1,0],[0,-1]], CNOT applies X to the target on basis states whose
control bit is 1, SWAP permutes basis amplitudes by exchanging two bit
positions of the index; the tensor extension by identities is realised by
explicit index-bit manipulation. -/
def applyGate : GateOp → (Nat → CAmp) → Nat → CAmp
  | .h q, v, i =>
      if i.testBit q then cH * (v (flipBit i q) - v i)
      else cH * (v i + v (flipBit i q))
  | .x q, v, i => v (flipBit i q)
  | .z q, v, i => if i.testBit q then -v i else v i
  | .cnot c t, v, i => v (cnotPerm c t i)
  | .swap a b, v, i => v (swapBits i a b)

/-- Modelled from the spec: the all-zero initial state, amplitude 1 at basis
index 0 and 0 elsewhere. -/
def initState : Nat → CAmp := fun i => if i = 0 then 1 else 0

/-- Apply the gates of a circuit to a state vector, in circuit order. -/
def runCircuit (gates : List GateOp) (v : Nat → CAmp) : Nat → CAmp :=
  gates.foldl (fun s g => applyGate g s) v

/-- The qubit indices referenced by a gate operation. -/
def gateIndices : GateOp → List Nat
  | .h q => [q]
  | .x q => [q]
  | .z q => [q]
  | .cnot c t => [c, t]
  | .swap a b => [a, b]

/-- The two error kinds of the specification. -/
inductive QError
  | InvalidOperation
  | DimensionMismatch
deriving DecidableEq

/-- Every qubit index referenced by the gate is below `n`. -/
def gateValid (n : Nat) (g : GateOp) : Bool := (gateIndices g).all (· < n)

/-- The control and target of a CNOT are distinct (true on all other
gates); the degenerate CNOT with control = target is not a unitary. -/
def cnotDistinct : GateOp → Bool
  | .cnot c t => c != t
  | _ => true

/-- Modelled from the spec: `simulate(circuit, num_qubits)` evolves the
all-zero basis state through the circuit, returning the 2 ^ num_qubits final
amplitudes, and fails with `DimensionMismatch` when the circuit references a
qubit index that is not below `num_qubits`. -/
def simulate (circuit : List GateOp) (num_qubits : Nat) : Except QError (List CAmp) :=
  if circuit.all (gateValid num_qubits) then
    .ok ((List.range (2 ^ num_qubits)).map (runCircuit circuit initState))
  else .error .DimensionMismatch

/-- A circuit under construction: a fixed register size together with the
ordered, append-only gate list. -/
structure Circuit where
  num_qubits : Nat
  gates : List GateOp
deriving DecidableEq

/-- Required arity of each gate name: 1 for H/X/Z and 2 for CNOT/SWAP. -/
def arity : GateName → Nat
  | .H => 1
  | .X => 1
  | .Z => 1
  | .CNOT => 2
  | .SWAP => 2

/-- Pair a gate name with its index list when the list has the gate's
arity; `none` on an arity mismatch. -/
def mkGateOp : GateName → List Nat → Option GateOp
  | .H, [q] => some (.h q)
  | .X, [q] => some (.x q)
  | .Z, [q] => some (.z q)
  | .CNOT, [c, t] => some (.cnot c t)
  | .SWAP, [a, b] => some (.swap a b)
  | _, _ => none

/-- The name a gate operation carries. -/
def gateName : GateOp → GateName
  | .h _ => .H
  | .x _ => .X
  | .z _ => .Z
  | .cnot _ _ => .CNOT
  | .swap _ _ => .SWAP

/-- Modelled from the spec: `add_gate(name, qubit_indices)` validates that
the index list has the gate's required arity and that every index is within
[0, N); on success it appends the gate at the end of the circuit's ordered
list, and otherwise it fails with `InvalidOperation`. -/
def add_gate (name : GateName) (qubit_indices : List Nat) (qc : Circuit) :
    Except QError Circuit :=
  match mkGateOp name qubit_indices with
  | some g =>
      if qubit_indices.all (· < qc.num_qubits) then
        .ok ⟨qc.num_qubits, qc.gates ++ [g]⟩
      else .error .InvalidOperation
  | none => .error .InvalidOperation

/-- Number of set bits of `i` among bit positions 0..w-1 (Hamming weight of
a basis index of a w-qubit register). -/
def hammingWeight (w i : Nat) : Nat := (List.range w).countP (fun q => i.testBit q)

/-- An empty circuit on `n` qubits. -/
def emptyCircuit (n : Nat) : Circuit := ⟨n, []⟩

/-- Cell 4 of the notebook: the 2-qubit singlet-preparation circuit
[H(0), Z(0), X(1), CNOT(0,1)]. -/
def singletCircuit : List GateOp := [.h 0, .z 0, .x 1, .cnot 0 1]

/-- Cells 7 and 9 of the notebook: the 4-qubit circuit preparing singlet
pairs on qubits (0,1) and (2,3), then applying SWAP(1,3). -/
def swapVariantCircuit : List GateOp :=
  [.h 0, .z 0, .x 1, .cnot 0 1, .h 2, .z 2, .x 3, .cnot 2 3, .swap 1 3]

/-- Cell 12 of the notebook: the 4-qubit circuit with the same H/Z/X
preparations but wiring CNOT(0,3) and CNOT(2,1) directly, with no SWAP. -/
def directCircuit : List GateOp :=
  [.h 0, .z 0, .x 3, .cnot 0 3, .h 2, .z 2, .x 1, .cnot 2 1]

/-- The 2-qubit singlet circuit built through the validating builder. -/
def buildSinglet : Except QError Circuit :=
  (((add_gate .H [0] (emptyCircuit 2)).bind
    (add_gate .Z [0])).bind
    (add_gate .X [1])).bind
    (add_gate .CNOT [0, 1])

/-- The 4-qubit SWAP-variant circuit built through the validating builder. -/
def buildSwapVariant : Except QError Circuit :=
  ((((((((add_gate .H [0] (emptyCircuit 4)).bind
    (add_gate .Z [0])).bind
    (add_gate .X [1])).bind
    (add_gate .CNOT [0, 1])).bind
    (add_gate .H [2])).bind
    (add_gate .Z [2])).bind
    (add_gate .X [3])).bind
    (add_gate .CNOT [2, 3])).bind
    (add_gate .SWAP [1, 3])

/-- The 4-qubit direct-CNOT circuit built through the validating builder. -/
def buildDirect : Except QError Circuit :=
  (((((((add_gate .H [0] (emptyCircuit 4)).bind
    (add_gate .Z [0])).bind
    (add_gate .X [3])).bind
    (add_gate .CNOT [0, 3])).bind
    (add_gate .H [2])).bind
    (add_gate .Z [2])).bind
    (add_gate .X [1])).bind
    (add_gate .CNOT [2, 1])

instance {ε α : Type} [DecidableEq ε] [DecidableEq α] : DecidableEq (Except ε α) := fun x y =>
  match x, y with
  | .error e1, .error e2 =>
      if h : e1 = e2 then isTrue (h ▸ rfl)
      else isFalse (fun hc => h (by cases hc; rfl))
  | .error _, .ok _ => isFalse (fun hc => Except.noConfusion hc)
  | .ok _, .error _ => isFalse (fun hc => Except.noConfusion hc)
  | .ok a1, .ok a2 =>
      if h : a1 = a2 then isTrue (h ▸ rfl)
      else isFalse (fun hc => h (by cases hc; rfl))

theorem Rt2_zero_def : (0 : Rt2) = ⟨0, 0⟩ := rfl

theorem Rt2_one_def : (1 : Rt2) = ⟨1, 0⟩ := rfl

theorem Rt2_add_def (x y : Rt2) : x + y = ⟨x.a + y.a, x.b + y.b⟩ := rfl

theorem Rt2_mul_def (x y : Rt2) :
    x * y = ⟨x.a * y.a + 2 * (x.b * y.b), x.a * y.b + x.b * y.a⟩ := rfl

theorem CAmp_add_def (x y : CAmp) : x + y = ⟨x.re + y.re, x.im + y.im⟩ := rfl

theorem CAmp_neg_def (x : CAmp) : -x = ⟨-x.re, -x.im⟩ := rfl

theorem CAmp_sub_def (x y : CAmp) : x - y = ⟨x.re - y.re, x.im - y.im⟩ := rfl

theorem CAmp_mul_def (x y : CAmp) :
    x * y = ⟨x.re * y.re - x.im * y.im, x.re * y.im + x.im * y.re⟩ := rfl

/-- Doubling is injective on ℚ(√2) (the ring has characteristic zero). -/
theorem Rt2_two_mul_cancel {x y : Rt2} (h : 2 * x = 2 * y) : x = y := by
  rw [two_mul, two_mul] at h
  rcases x with ⟨xa, xb⟩
  rcases y with ⟨ya, yb⟩
  simp only [Rt2_add_def, Rt2.mk.injEq] at h
  obtain ⟨h1, h2⟩ := h
  simp only [Rt2.mk.injEq]
  constructor <;> linarith

/-- The defining relation of the Hadamard coefficient: 2·(1/√2)² = 1. -/
theorem sqrtHalf_relation : 2 * (sqrtHalf * sqrtHalf) = 1 := by
  have h : sqrtHalf * sqrtHalf = ⟨1/2, 0⟩ := by
    rw [sqrtHalf, Rt2_mul_def]
    simp only [Rt2.mk.injEq]
    norm_num
  rw [h, two_mul, Rt2_add_def, Rt2_one_def]
  simp only [Rt2.mk.injEq]
  norm_num

/-- Parallelogram law for the squared magnitude. -/
theorem normSq_add_normSq_sub (x y : CAmp) :
    normSq (x + y) + normSq (x - y) = 2 * normSq x + 2 * normSq y := by
  rcases x with ⟨xr, xi⟩
  rcases y with ⟨yr, yi⟩
  simp only [CAmp_add_def, CAmp_sub_def, normSq]
  ring

theorem normSq_neg (z : CAmp) : normSq (-z) = normSq z := by
  rcases z with ⟨zr, zi⟩
  simp only [CAmp_neg_def, normSq]
  ring

/-- Multiplying by the Hadamard coefficient halves the squared magnitude. -/
theorem normSq_cH_mul (z : CAmp) : 2 * normSq (cH * z) = normSq z := by
  rcases z with ⟨zr, zi⟩
  simp only [cH, CAmp_mul_def, normSq]
  linear_combination (zr * zr + zi * zi) * sqrtHalf_relation

/-- The squared magnitudes of the two outputs of a Hadamard butterfly sum
to the squared magnitudes of its two inputs. -/
theorem normSq_hadamard_pair (x y : CAmp) :
    normSq (cH * (x + y)) + normSq (cH * (x - y)) = normSq x + normSq y := by
  apply Rt2_two_mul_cancel
  calc 2 * (normSq (cH * (x + y)) + normSq (cH * (x - y)))
      = 2 * normSq (cH * (x + y)) + 2 * normSq (cH * (x - y)) := by ring
    _ = normSq (x + y) + normSq (x - y) := by
        rw [normSq_cH_mul, normSq_cH_mul]
    _ = 2 * normSq x + 2 * normSq y := normSq_add_normSq_sub x y
    _ = 2 * (normSq x + normSq y) := by ring

theorem two_pow_lt_of_lt {q n : Nat} (h : q < n) : 2 ^ q < 2 ^ n :=
  Nat.pow_lt_pow_right (by norm_num) h

theorem flipBit_lt {i q n : Nat} (hi : i < 2 ^ n) (hq : q < n) : flipBit i q < 2 ^ n :=
  Nat.xor_lt_two_pow hi (two_pow_lt_of_lt hq)

theorem testBit_flipBit_self (i q : Nat) : (flipBit i q).testBit q = !(i.testBit q) := by
  simp [flipBit, Nat.testBit_two_pow_self]

theorem testBit_flipBit_of_ne {q r : Nat} (h : q ≠ r) (i : Nat) :
    (flipBit i q).testBit r = i.testBit r := by
  simp [flipBit, Nat.testBit_two_pow_of_ne h]

theorem flipBit_flipBit (i q : Nat) : flipBit (flipBit i q) q = i := by
  simp [flipBit, Nat.xor_assoc]

theorem swapBits_lt {i a b n : Nat} (hi : i < 2 ^ n) (ha : a < n) (hb : b < n) :
    swapBits i a b < 2 ^ n := by
  unfold swapBits
  split
  · exact hi
  · exact Nat.xor_lt_two_pow hi
      (Nat.xor_lt_two_pow (two_pow_lt_of_lt ha) (two_pow_lt_of_lt hb))

theorem swapBits_swapBits (i a b : Nat) : swapBits (swapBits i a b) a b = i := by
  by_cases h : i.testBit a = i.testBit b
  · simp [swapBits, h]
  · have hab : a ≠ b := by
      intro e
      exact h (by rw [e])
    have ha : (i ^^^ (2 ^ a ^^^ 2 ^ b)).testBit a = !(i.testBit a) := by
      simp [Nat.testBit_two_pow_self, Nat.testBit_two_pow_of_ne (Ne.symm hab)]
    have hb : (i ^^^ (2 ^ a ^^^ 2 ^ b)).testBit b = !(i.testBit b) := by
      simp [Nat.testBit_two_pow_self, Nat.testBit_two_pow_of_ne hab]
    have h2 : ¬((i ^^^ (2 ^ a ^^^ 2 ^ b)).testBit a = (i ^^^ (2 ^ a ^^^ 2 ^ b)).testBit b) := by
      rw [ha, hb]
      intro hc
      exact h (Bool.not_inj hc)
    have hinner : swapBits i a b = i ^^^ (2 ^ a ^^^ 2 ^ b) := by
      rw [swapBits, if_neg h]
    rw [hinner, swapBits, if_neg h2, Nat.xor_assoc, Nat.xor_self, Nat.xor_zero]

theorem cnotPerm_lt {c t n i : Nat} (hi : i < 2 ^ n) (ht : t < n) :
    cnotPerm c t i < 2 ^ n := by
  unfold cnotPerm
  split
  · exact flipBit_lt hi ht
  · exact hi

theorem cnotPerm_cnotPerm {c t : Nat} (hct : c ≠ t) (i : Nat) :
    cnotPerm c t (cnotPerm c t i) = i := by
  unfold cnotPerm
  by_cases h : i.testBit c
  · have h2 : (flipBit i t).testBit c = i.testBit c :=
      testBit_flipBit_of_ne (fun e => hct e.symm) i
    simp [h, h2, flipBit_flipBit]
  · simp [h]

/-- Reindexing a sum over all basis indices of an n-qubit register along a
self-inverse index permutation leaves the sum unchanged. -/
theorem sum_range_perm (n : Nat) (σ : Nat → Nat)
    (hmem : ∀ i, i < 2 ^ n → σ i < 2 ^ n) (hinv : ∀ i, σ (σ i) = i)
    (f : Nat → Rt2) :
    ∑ i ∈ Finset.range (2 ^ n), f (σ i) = ∑ i ∈ Finset.range (2 ^ n), f i :=
  Finset.sum_nbij' σ σ
    (fun i hi => Finset.mem_range.2 (hmem i (Finset.mem_range.1 hi)))
    (fun i hi => Finset.mem_range.2 (hmem i (Finset.mem_range.1 hi)))
    (fun i _ => hinv i) (fun i _ => hinv i) (fun _ _ => rfl)

/-- The X gate preserves the total squared magnitude. -/
theorem sum_normSq_x (n q : Nat) (hq : q < n) (v : Nat → CAmp) :
    ∑ i ∈ Finset.range (2 ^ n), normSq (applyGate (.x q) v i)
      = ∑ i ∈ Finset.range (2 ^ n), normSq (v i) := by
  simp only [applyGate]
  exact sum_range_perm n (flipBit · q) (fun i hi => flipBit_lt hi hq)
    (fun i => flipBit_flipBit i q) (fun j => normSq (v j))

/-- The Z gate preserves the total squared magnitude. -/
theorem sum_normSq_z (n q : Nat) (v : Nat → CAmp) :
    ∑ i ∈ Finset.range (2 ^ n), normSq (applyGate (.z q) v i)
      = ∑ i ∈ Finset.range (2 ^ n), normSq (v i) := by
  refine Finset.sum_congr rfl fun i _ => ?_
  by_cases hb : i.testBit q <;> simp [applyGate, hb, normSq_neg]

/-- The SWAP gate preserves the total squared magnitude. -/
theorem sum_normSq_swap (n a b : Nat) (ha : a < n) (hb : b < n) (v : Nat → CAmp) :
    ∑ i ∈ Finset.range (2 ^ n), normSq (applyGate (.swap a b) v i)
      = ∑ i ∈ Finset.range (2 ^ n), normSq (v i) := by
  simp only [applyGate]
  exact sum_range_perm n (swapBits · a b) (fun i hi => swapBits_lt hi ha hb)
    (fun i => swapBits_swapBits i a b) (fun j => normSq (v j))

/-- A CNOT with distinct control and target preserves the total squared
magnitude. -/
theorem sum_normSq_cnot (n c t : Nat) (ht : t < n) (hct : c ≠ t) (v : Nat → CAmp) :
    ∑ i ∈ Finset.range (2 ^ n), normSq (applyGate (.cnot c t) v i)
      = ∑ i ∈ Finset.range (2 ^ n), normSq (v i) := by
  simp only [applyGate]
  exact sum_range_perm n (cnotPerm c t) (fun i hi => cnotPerm_lt hi ht)
    (fun i => cnotPerm_cnotPerm hct i) (fun j => normSq (v j))

/-- The two amplitudes of a Hadamard butterfly carry the squared magnitude
of the two amplitudes they combine. -/
theorem normSq_h_pair (q : Nat) (v : Nat → CAmp) (i : Nat) :
    normSq (applyGate (.h q) v i) + normSq (applyGate (.h q) v (flipBit i q))
      = normSq (v i) + normSq (v (flipBit i q)) := by
  by_cases hb : i.testBit q
  · have h0 : (flipBit i q).testBit q = false := by
      rw [testBit_flipBit_self, hb]
      rfl
    rw [show applyGate (.h q) v i = cH * (v (flipBit i q) - v i) by
          simp [applyGate, hb],
        show applyGate (.h q) v (flipBit i q)
            = cH * (v (flipBit i q) + v (flipBit (flipBit i q) q)) by
          simp [applyGate, h0],
        flipBit_flipBit]
    calc normSq (cH * (v (flipBit i q) - v i)) + normSq (cH * (v (flipBit i q) + v i))
        = normSq (cH * (v (flipBit i q) + v i)) + normSq (cH * (v (flipBit i q) - v i)) :=
          add_comm _ _
      _ = normSq (v (flipBit i q)) + normSq (v i) :=
          normSq_hadamard_pair (v (flipBit i q)) (v i)
      _ = normSq (v i) + normSq (v (flipBit i q)) := add_comm _ _
  · have h0 : (flipBit i q).testBit q = true := by
      rw [testBit_flipBit_self]
      simp [hb]
    rw [show applyGate (.h q) v i = cH * (v i + v (flipBit i q)) by
          simp [applyGate, hb],
        show applyGate (.h q) v (flipBit i q)
            = cH * (v (flipBit (flipBit i q) q) - v (flipBit i q)) by
          simp [applyGate, h0],
        flipBit_flipBit]
    exact normSq_hadamard_pair (v i) (v (flipBit i q))

/-- The Hadamard gate preserves the total squared magnitude. -/
theorem sum_normSq_h (n q : Nat) (hq : q < n) (v : Nat → CAmp) :
    ∑ i ∈ Finset.range (2 ^ n), normSq (applyGate (.h q) v i)
      = ∑ i ∈ Finset.range (2 ^ n), normSq (v i) := by
  apply Rt2_two_mul_cancel
  have hflip1 : ∑ i ∈ Finset.range (2 ^ n), normSq (applyGate (.h q) v (flipBit i q))
      = ∑ i ∈ Finset.range (2 ^ n), normSq (applyGate (.h q) v i) :=
    sum_range_perm n (flipBit · q) (fun i hi => flipBit_lt hi hq)
      (fun i => flipBit_flipBit i q) (fun j => normSq (applyGate (.h q) v j))
  have hflip2 : ∑ i ∈ Finset.range (2 ^ n), normSq (v (flipBit i q))
      = ∑ i ∈ Finset.range (2 ^ n), normSq (v i) :=
    sum_range_perm n (flipBit · q) (fun i hi => flipBit_lt hi hq)
      (fun i => flipBit_flipBit i q) (fun j => normSq (v j))
  calc 2 * ∑ i ∈ Finset.range (2 ^ n), normSq (applyGate (.h q) v i)
      = (∑ i ∈ Finset.range (2 ^ n), normSq (applyGate (.h q) v i))
        + ∑ i ∈ Finset.range (2 ^ n), normSq (applyGate (.h q) v (flipBit i q)) := by
        rw [hflip1, two_mul]
    _ = ∑ i ∈ Finset.range (2 ^ n),
          (normSq (applyGate (.h q) v i) + normSq (applyGate (.h q) v (flipBit i q))) :=
        Finset.sum_add_distrib.symm
    _ = ∑ i ∈ Finset.range (2 ^ n), (normSq (v i) + normSq (v (flipBit i q))) :=
        Finset.sum_congr rfl (fun i _ => normSq_h_pair q v i)
    _ = (∑ i ∈ Finset.range (2 ^ n), normSq (v i))
        + ∑ i ∈ Finset.range (2 ^ n), normSq (v (flipBit i q)) :=
        Finset.sum_add_distrib
    _ = 2 * ∑ i ∈ Finset.range (2 ^ n), normSq (v i) := by
        rw [hflip2, two_mul]

/-- Index lists of the right arity are exactly those the builder pairs with
a gate name. -/
theorem mkGateOp_none_iff (name : GateName) (idxs : List Nat) :
    mkGateOp name idxs = none ↔ idxs.length ≠ arity name := by
  cases name <;> rcases idxs with _ | ⟨i1, _ | ⟨i2, _ | ⟨i3, rest⟩⟩⟩ <;>
    simp [mkGateOp, arity]

/-- The gate operation the builder constructs carries exactly the requested
name and index list. -/
theorem mkGateOp_some_props {name : GateName} {idxs : List Nat} {g : GateOp}
    (hm : mkGateOp name idxs = some g) : gateName g = name ∧ gateIndices g = idxs := by
  cases name <;> rcases idxs with _ | ⟨i1, _ | ⟨i2, _ | ⟨i3, rest⟩⟩⟩ <;>
    simp only [mkGateOp, Option.some.injEq] at hm <;>
    first
      | (subst hm; exact ⟨rfl, rfl⟩)
      | cases hm

attribute [local semireducible] Rat.add Rat.mul Rat.sub Rat.inv

/-- C1: from the all-zero 4-qubit initial state, the circuit preparing
singlets on (0,1) and (2,3) followed by SWAP(1,3) yields exactly the same
final statevector as the circuit applying the same H/Z/X preparations with
CNOT(0,3) and CNOT(2,1) wired directly and no SWAP (exact equality, hence
equality within any floating-point tolerance). -/
theorem swap_variant_equals_direct :
    simulate swapVariantCircuit 4 = simulate directCircuit 4 := by decide

/-- C2: simulating [H(0), Z(0), X(1), CNOT(0,1)] on 2 qubits from the
all-zero basis state yields the statevector [0, -1/√2, 1/√2, 0] (exact
equality, hence within tolerance 1e-9). -/
theorem singlet_statevector :
    simulate singletCircuit 2 = .ok [0, -cH, cH, 0] := by decide

/-- C3: the singlet preparation applied to |00⟩ produces (|01⟩ - |10⟩)/√2:
the amplitude at the index of |01⟩ (q0 = 0, q1 = 1, basis index 2) is 1/√2,
it equals minus the amplitude at the index of |10⟩ (basis index 1), and the
remaining amplitudes (indices 0 and 3) are 0 — all exactly. -/
theorem singlet_amplitude_pattern :
    runCircuit singletCircuit initState 2 = cH ∧
    runCircuit singletCircuit initState 2 = -(runCircuit singletCircuit initState 1) ∧
    runCircuit singletCircuit initState 1 = -cH ∧
    runCircuit singletCircuit initState 0 = 0 ∧
    runCircuit singletCircuit initState 3 = 0 := by decide

/-- C4 (amended): every gate application on valid qubit indices preserves a
unit sum of squared magnitudes, provided a CNOT's control and target are
distinct; the degenerate CNOT with control = target (which the amended
claim excludes) is not norm-preserving. -/
theorem gate_norm_preservation (n : Nat) (g : GateOp) (v : Nat → CAmp)
    (hval : gateValid n g = true) (hcd : cnotDistinct g = true)
    (hnorm : ∑ i ∈ Finset.range (2 ^ n), normSq (v i) = 1) :
    ∑ i ∈ Finset.range (2 ^ n), normSq (applyGate g v i) = 1 := by
  cases g with
  | h q =>
      have hq : q < n := by simpa [gateValid, gateIndices] using hval
      rw [sum_normSq_h n q hq v]
      exact hnorm
  | x q =>
      have hq : q < n := by simpa [gateValid, gateIndices] using hval
      rw [sum_normSq_x n q hq v]
      exact hnorm
  | z q =>
      rw [sum_normSq_z n q v]
      exact hnorm
  | cnot c t =>
      have hq : c < n ∧ t < n := by simpa [gateValid, gateIndices] using hval
      have hct : c ≠ t := by simpa [cnotDistinct] using hcd
      rw [sum_normSq_cnot n c t hq.2 hct v]
      exact hnorm
  | swap a b =>
      have hq : a < n ∧ b < n := by simpa [gateValid, gateIndices] using hval
      rw [sum_normSq_swap n a b hq.1 hq.2 v]
      exact hnorm

/-- Witness: the Hadamard gate on qubit 0 of a 1-qubit register sends the
unit-norm all-zero state to a unit-norm state. -/
theorem gate_norm_preservation_witness :
    gateValid 1 (GateOp.h 0) = true ∧
    (∑ i ∈ Finset.range (2 ^ 1), normSq (applyGate (GateOp.h 0) initState i)) = 1 :=
  ⟨by decide, gate_norm_preservation 1 (GateOp.h 0) initState (by decide) (by decide)
    (by decide)⟩

/-- Counterexample to C4 as stated: the degenerate CNOT(0,0) passes the
index-range validation on a 1-qubit register, yet it maps the unit-norm
all-zero state to a state of squared norm 2. -/
theorem norm_not_preserved_degenerate_cnot :
    gateValid 1 (GateOp.cnot 0 0) = true ∧
    (∑ i ∈ Finset.range (2 ^ 1), normSq (initState i)) = 1 ∧
    (∑ i ∈ Finset.range (2 ^ 1), normSq (applyGate (GateOp.cnot 0 0) initState i)) ≠ 1 := by
  decide

/-- C5: applying SWAP(a,b) twice in succession, for distinct qubit indices
within the register, returns every statevector unchanged. -/
theorem swap_twice_id (n a b : Nat) (v : Nat → CAmp)
    (ha : a < n) (hb : b < n) (hab : a ≠ b) :
    applyGate (.swap a b) (applyGate (.swap a b) v) = v := by
  funext i
  simp only [applyGate]
  rw [swapBits_swapBits]

/-- Witness: SWAP(0,1) applied twice on a 2-qubit register fixes the
all-zero state. -/
theorem swap_twice_id_witness :
    applyGate (.swap 0 1) (applyGate (.swap 0 1) initState) = initState :=
  swap_twice_id 2 0 1 initState (by decide) (by decide) (by decide)

/-- C6: `simulate` fails with `DimensionMismatch` exactly when some gate of
the circuit references a qubit index at or above `num_qubits`, and succeeds
(returns some statevector) when every referenced index is below it. -/
theorem simulate_dimension_check (c : List GateOp) (n : Nat) :
    (simulate c n = .error .DimensionMismatch ↔
      ∃ g ∈ c, ∃ q ∈ gateIndices g, n ≤ q) ∧
    ((∀ g ∈ c, ∀ q ∈ gateIndices g, q < n) → ∃ out, simulate c n = .ok out) := by
  have hiff : (c.all (gateValid n) = true) ↔ (∀ g ∈ c, ∀ q ∈ gateIndices g, q < n) := by
    simp [List.all_eq_true, gateValid]
  constructor
  · by_cases hall : c.all (gateValid n) = true
    · simp only [simulate, if_pos hall]
      constructor
      · intro hc
        exact Except.noConfusion hc
      · rintro ⟨g, hg, q, hq, hnq⟩
        exact absurd (hiff.mp hall g hg q hq) (not_lt.mpr hnq)
    · simp only [simulate, if_neg hall]
      constructor
      · intro _
        have hne : ¬(∀ g ∈ c, ∀ q ∈ gateIndices g, q < n) :=
          fun hforall => hall (hiff.mpr hforall)
        push_neg at hne
        obtain ⟨g, hg, q, hq, hnq⟩ := hne
        exact ⟨g, hg, q, hq, hnq⟩
      · intro _
        trivial
  · intro hforall
    exact ⟨(List.range (2 ^ n)).map (runCircuit c initState),
      by simp only [simulate, if_pos (hiff.mpr hforall)]⟩

/-- Witness: a Hadamard on qubit 5 of a 2-qubit register is rejected with
`DimensionMismatch`, while the same gate on qubit 0 of a 1-qubit register
simulates successfully. -/
theorem simulate_dimension_check_witness :
    simulate [GateOp.h 5] 2 = .error .DimensionMismatch ∧
    ∃ out, simulate [GateOp.h 0] 1 = .ok out :=
  ⟨(simulate_dimension_check [GateOp.h 5] 2).1.mpr (by decide),
   (simulate_dimension_check [GateOp.h 0] 1).2 (by decide)⟩

/-- C7: `add_gate` fails with `InvalidOperation` exactly when the index
list's length differs from the gate's arity or some index is not below the
register size; on success it leaves the register size unchanged and appends
exactly the requested gate at the end of the ordered gate list. -/
theorem add_gate_spec (name : GateName) (idxs : List Nat) (qc : Circuit) :
    (add_gate name idxs qc = .error .InvalidOperation ↔
      idxs.length ≠ arity name ∨ ∃ i ∈ idxs, qc.num_qubits ≤ i) ∧
    (∀ qc', add_gate name idxs qc = .ok qc' →
      qc'.num_qubits = qc.num_qubits ∧
      ∃ g, gateName g = name ∧ gateIndices g = idxs ∧ qc'.gates = qc.gates ++ [g]) := by
  cases hm : mkGateOp name idxs with
  | none =>
      have he : add_gate name idxs qc = .error .InvalidOperation := by
        unfold add_gate
        rw [hm]
      rw [he]
      constructor
      · constructor
        · intro _
          exact Or.inl ((mkGateOp_none_iff name idxs).mp hm)
        · intro _
          rfl
      · intro qc' hq
        exact Except.noConfusion hq
  | some g =>
      have hgp := mkGateOp_some_props hm
      have he : add_gate name idxs qc =
          if idxs.all (· < qc.num_qubits) then
            Except.ok ⟨qc.num_qubits, qc.gates ++ [g]⟩
          else Except.error QError.InvalidOperation := by
        unfold add_gate
        rw [hm]
      by_cases hall : idxs.all (· < qc.num_qubits) = true
      · rw [he, if_pos hall]
        constructor
        · constructor
          · intro hc
            exact Except.noConfusion hc
          · rintro (hlen | ⟨i, hi, hni⟩)
            · rw [(mkGateOp_none_iff name idxs).mpr hlen] at hm
              exact Option.noConfusion hm
            · have := List.all_eq_true.mp hall i hi
              simp only [decide_eq_true_eq] at this
              omega
        · intro qc' hq
          cases hq
          exact ⟨rfl, g, hgp.1, hgp.2, rfl⟩
      · rw [he, if_neg hall]
        constructor
        · constructor
          · intro _
            right
            have hne : ¬(∀ i ∈ idxs, i < qc.num_qubits) := by
              intro hforall
              exact hall (List.all_eq_true.mpr fun i hi =>
                decide_eq_true (hforall i hi))
            push_neg at hne
            obtain ⟨i, hi, hni⟩ := hne
            exact ⟨i, hi, hni⟩
          · intro _
            rfl
        · intro qc' hq
          exact Except.noConfusion hq

/-- Witness: adding H with two indices to an empty 2-qubit circuit is
rejected with `InvalidOperation`, while adding H on qubit 0 succeeds and
appends exactly that gate. -/
theorem add_gate_spec_witness :
    add_gate .H [0, 1] (emptyCircuit 2) = .error .InvalidOperation ∧
    ((emptyCircuit 2).num_qubits = (emptyCircuit 2).num_qubits ∧
      ∃ g, gateName g = .H ∧ gateIndices g = [0] ∧
        (Circuit.mk 2 [GateOp.h 0]).gates = (emptyCircuit 2).gates ++ [g]) :=
  ⟨(add_gate_spec .H [0, 1] (emptyCircuit 2)).1.mpr (Or.inl (by decide)),
   by
    have h2 := (add_gate_spec .H [0] (emptyCircuit 2)).2 ⟨2, [GateOp.h 0]⟩ (by decide)
    exact ⟨rfl, h2.2⟩⟩

/-- C9: both 4-qubit circuits produce a final statevector supported exactly
on basis indices 3, 5, 10 and 12 with real amplitudes -1/2, 1/2, 1/2, -1/2,
and every nonzero amplitude sits at an index of Hamming weight 2. -/
theorem four_qubit_output_support :
    (runCircuit swapVariantCircuit initState 3 = -cHalf ∧
     runCircuit swapVariantCircuit initState 5 = cHalf ∧
     runCircuit swapVariantCircuit initState 10 = cHalf ∧
     runCircuit swapVariantCircuit initState 12 = -cHalf ∧
     ∀ i < 16, i ∉ ([3, 5, 10, 12] : List Nat) →
       runCircuit swapVariantCircuit initState i = 0) ∧
    (runCircuit directCircuit initState 3 = -cHalf ∧
     runCircuit directCircuit initState 5 = cHalf ∧
     runCircuit directCircuit initState 10 = cHalf ∧
     runCircuit directCircuit initState 12 = -cHalf ∧
     ∀ i < 16, i ∉ ([3, 5, 10, 12] : List Nat) →
       runCircuit directCircuit initState i = 0) ∧
    (∀ i < 16, runCircuit swapVariantCircuit initState i ≠ 0 → hammingWeight 4 i = 2) ∧
    (∀ i < 16, runCircuit directCircuit initState i ≠ 0 → hammingWeight 4 i = 2) := by
  decide

/-- Witness: index 7 (Hamming weight 3) is outside the support of the
SWAP-variant output, and index 3 of the direct output is nonzero with
Hamming weight 2. -/
theorem four_qubit_output_support_witness :
    runCircuit swapVariantCircuit initState 7 = 0 ∧ hammingWeight 4 3 = 2 :=
  ⟨four_qubit_output_support.1.2.2.2.2 7 (by decide) (by decide),
   four_qubit_output_support.2.2.2 3 (by decide) (by decide)⟩

/-- C10: each of the notebook's three circuits is accepted gate-by-gate by
the validating builder (so the `InvalidOperation` branch is never taken) and
consists only of gates whose qubit indices are below the declared register
size (so `DimensionMismatch` is unreachable for them). -/
theorem notebook_circuits_valid :
    buildSinglet = .ok ⟨2, singletCircuit⟩ ∧
    buildSwapVariant = .ok ⟨4, swapVariantCircuit⟩ ∧
    buildDirect = .ok ⟨4, directCircuit⟩ ∧
    singletCircuit.all (gateValid 2) = true ∧
    swapVariantCircuit.all (gateValid 4) = true ∧
    directCircuit.all (gateValid 4) = true := by
  decide
